import Mathlib

/-!
Verification of the radix-trie node module (`src/element.rs`).

Modelling choices:
* Rust `String` labels are modelled as UTF-8 byte lists (`List Nat`), since the
  label primitives (`remove_label_prefix`, `replace_range`) operate on byte
  indices and char boundaries.
* A Rust panic (`assert!`, `replace_range` boundary check) is modelled by
  returning `none` from an `Option`-valued function.
* `&mut` in-place mutation is modelled by returning the updated element.
-/

namespace RadixTrie

/-- The tagged tree node, from `enum Element<T>` in `src/element.rs`. -/
inductive Element (T : Type) : Type where
  | Value (label : List Nat) (value : T) (children : List (Element T))
  | Node (label : List Nat) (children : List (Element T))
  | Base (label : List Nat) (children : List (Element T))
deriving Repr

namespace Element

variable {T : Type}

/-- `unpack!` macro / `unpack()` method: dismantle into (label, optional value, children). -/
def unpack : Element T → List Nat × Option T × List (Element T)
  | .Value label value children => (label, some value, children)
  | .Node label children => (label, none, children)
  | .Base label children => (label, none, children)

/-- `label()` accessor: `unpack!(self).0`. -/
def label (e : Element T) : List Nat := e.unpack.1

/-- `children()` accessor: `unpack!(self).2`. -/
def children (e : Element T) : List (Element T) := e.unpack.2.2

/-- `value()` accessor: `unpack!(self).1`. -/
def value (e : Element T) : Option T := e.unpack.2.1

/-- `value_mut()` accessor: same selection as `value()`, through `unpack!`. -/
def value_mut (e : Element T) : Option T := e.unpack.2.1

/-- `is_node()`: true only for the `Node` variant. -/
def is_node : Element T → Bool
  | .Node _ _ => true
  | _ => false

/-- Writing through `label_mut()`: replace the label field, everything else kept. -/
def setLabel : Element T → List Nat → Element T
  | .Value _ value children, l => .Value l value children
  | .Node _ children, l => .Node l children
  | .Base _ children, l => .Base l children

end Element

/-- Rust continuation byte test: `0x80 ≤ b < 0xC0`. -/
def contByte (b : Nat) : Bool := 0x80 ≤ b && b < 0xC0

/-- Rust `str::is_char_boundary` on the byte list: index 0 is a boundary; an
in-range index is a boundary iff the byte there is not a continuation byte;
past-the-end indices are a boundary only at exactly the length. -/
def is_char_boundary (s : List Nat) (i : Nat) : Bool :=
  if i = 0 then true
  else
    match s.get? i with
    | some b => !(contByte b)
    | none => i == s.length

/-- Rust `String::replace_range(..n, "")`: panics (`none`) unless `n` is a char
boundary, otherwise deletes the first `n` bytes. -/
def replaceRangePrefix (s : List Nat) (n : Nat) : Option (List Nat) :=
  if is_char_boundary s n then some (s.drop n) else none

namespace Element

variable {T : Type}

/-- `remove_label_prefix(prefix_len)`: `self.label_mut().replace_range(..prefix_len, "")`. -/
def remove_label_prefix (e : Element T) (prefix_len : Nat) : Option (Element T) :=
  (replaceRangePrefix e.label prefix_len).map e.setLabel

/-- `add_label_prefix(prefix)`: `self.label_mut().insert_str(0, prefix)`. -/
def add_label_prefix (e : Element T) (p : List Nat) : Element T :=
  e.setLabel (p ++ e.label)

/-- The pop/push loop inside `take_children`: repeatedly `pop` from the end of
`children` and `push` onto `old`. -/
def popPush (children old : List (Element T)) : List (Element T) :=
  match h : children.getLast? with
  | none => old
  | some child => popPush children.dropLast (old ++ [child])
termination_by children.length
decreasing_by
  have hne : children ≠ [] := by
    intro hnil; rw [hnil] at h; simp [List.getLast?] at h
  have := List.length_pos.mpr hne
  simp [List.length_dropLast]
  omega

/-- `take_children`: drain the children into `old` (reversing), then `old.reverse()`. -/
def take_children (children : List (Element T)) : List (Element T) :=
  (popPush children []).reverse

/-- `node_to_value(node, value)`: asserts the `Node` variant (panic modelled as
`none`), drains the children, and overwrites the slot with a `Value`. -/
def node_to_value (node : Element T) (value : T) : Option (Element T) :=
  match node with
  | .Node label children => some (.Value label value (take_children children))
  | _ => none

end Element

mutual
/-- Number of nodes of a tree (used as termination measure for the traversal). -/
def Element.size : Element T → Nat
  | .Value _ _ children => 1 + sizeList children
  | .Node _ children => 1 + sizeList children
  | .Base _ children => 1 + sizeList children

def sizeList : List (Element T) → Nat
  | [] => 0
  | c :: cs => c.size + sizeList cs
end

/-- Total node count of the elements carried by a work queue. -/
def qsize {α : Type} (q : List (α × Element T)) : Nat := sizeList (q.map Prod.snd)

theorem sizeList_append (xs ys : List (Element T)) :
    sizeList (xs ++ ys) = sizeList xs + sizeList ys := by
  induction xs with
  | nil => simp [sizeList]
  | cons c cs ih => simp [sizeList, ih]; omega

theorem qsize_append {α : Type} (q r : List (α × Element T)) :
    qsize (q ++ r) = qsize q + qsize r := by
  simp [qsize, sizeList_append]

theorem qsize_map_pair {α : Type} (i : α) (cs : List (Element T)) :
    qsize (cs.map fun c => (i, c)) = sizeList cs := by
  simp only [qsize, List.map_map]
  have : (Prod.snd ∘ fun c : Element T => (i, c)) = id := rfl
  rw [this, List.map_id]

theorem size_pos (e : Element T) : 0 < e.size := by
  cases e <;> simp [Element.size]

namespace Element

variable {T : Type}

/-- The `while let Some((prefix_index, element)) = children.pop_front()` loop of
`collect_all_child_values`.  `labels` is the append-only path-label table, `res`
the accumulated output.  `labels[prefix_index]` in the source is an (always in
range) vector index; it is modelled by `getD` with default `[]`. -/
def cacvLoop : List (Nat × Element T) → List (List Nat) → List (List Nat × T) →
    List (List Nat × T)
  | [], _labels, res => res
  | (prefix_index, element) :: rest, labels, res =>
    let lbl := labels.getD prefix_index [] ++ element.label
    let labels' := labels ++ [lbl]
    let index := labels'.length - 1
    let res' :=
      match element.value with
      | some v => res ++ [(labels'.getD index [], v)]
      | none => res
    cacvLoop (rest ++ element.children.map fun c => (index, c)) labels' res'
termination_by q _ _ => qsize q
decreasing_by
  simp only [qsize_append, qsize_map_pair]
  have h1 : qsize ((prefix_index, element) :: rest) = element.size + qsize rest := by
    simp [qsize, sizeList]
  have h2 : sizeList element.children < element.size := by
    cases element <;> simp [Element.size, Element.children, Element.unpack]
  omega

/-- `collect_all_child_values()`: seed the label table with the receiver's own
label, emit the receiver itself when it holds a value, queue its children with
parent index 0, and run the loop. -/
def collect_all_child_values (e : Element T) : List (List Nat × T) :=
  let labels := [e.label]
  let res :=
    match e.value with
    | some v => [(e.label, v)]
    | none => []
  cacvLoop (e.children.map fun c => (labels.length - 1, c)) labels res

theorem popPush_eq (children old : List (Element T)) :
    popPush children old = old ++ children.reverse := by
  have H : ∀ (n : Nat) (cs os : List (Element T)), cs.length = n →
      popPush cs os = os ++ cs.reverse := by
    intro n
    induction n with
    | zero =>
      intro cs os hn
      have : cs = [] := List.length_eq_zero.mp hn
      subst this
      rw [popPush]
      simp
    | succ k ih =>
      intro cs os hn
      have hne : cs ≠ [] := by
        intro hnil; subst hnil; simp at hn
      rw [popPush]
      split
      · rename_i heq
        exact absurd (List.getLast?_eq_none_iff.mp heq) hne
      · rename_i child heq
        have hchild : child = cs.getLast hne := by
          rw [List.getLast?_eq_getLast cs hne] at heq
          exact (Option.some.inj heq).symm
        subst hchild
        have hlen : cs.dropLast.length = k := by
          simp [List.length_dropLast, hn]
        rw [ih cs.dropLast (os ++ [cs.getLast hne]) hlen]
        have hsplit := List.dropLast_append_getLast hne
        calc (os ++ [cs.getLast hne]) ++ cs.dropLast.reverse
            = os ++ ([cs.getLast hne] ++ cs.dropLast.reverse) := by
              rw [List.append_assoc]
          _ = os ++ (cs.dropLast ++ [cs.getLast hne]).reverse := by
              rw [List.reverse_append]; rfl
          _ = os ++ cs.reverse := by rw [hsplit]
  exact H children.length children old rfl

theorem take_children_eq (children : List (Element T)) :
    take_children children = children := by
  simp [take_children, popPush_eq]

/-- The same queue discipline as `cacvLoop`, with each queue entry carrying its
parent's materialised full key instead of an index into the label table. -/
def bfsAux : List (List Nat × Element T) → List (List Nat × T)
  | [] => []
  | (pre, e) :: rest =>
    (match e.value with
     | some v => [(pre ++ e.label, v)]
     | none => []) ++ bfsAux (rest ++ e.children.map fun c => (pre ++ e.label, c))
termination_by q => qsize q
decreasing_by
  simp only [qsize_append, qsize_map_pair]
  have h1 : qsize ((pre, e) :: rest) = e.size + qsize rest := by
    simp [qsize, sizeList]
  have h2 : sizeList e.children < e.size := by
    cases e <;> simp [Element.size, Element.children, Element.unpack]
  omega

end Element

/-! ### UTF-8 model

Rust `String`/`&str` values are always valid UTF-8; `validUtf8` characterises
the byte lists that can arise as labels or prefixes, and `strBytes` encodes a
Lean string literal the way Rust stores it. -/

/-- Standard UTF-8 encoding of one scalar value. -/
def utf8EncodeChar (c : Char) : List Nat :=
  let n := c.toNat
  if n < 0x80 then [n]
  else if n < 0x800 then [0xC0 + n / 0x40, 0x80 + n % 0x40]
  else if n < 0x10000 then
    [0xE0 + n / 0x1000, 0x80 + n / 0x40 % 0x40, 0x80 + n % 0x40]
  else
    [0xF0 + n / 0x40000, 0x80 + n / 0x1000 % 0x40, 0x80 + n / 0x40 % 0x40,
     0x80 + n % 0x40]

/-- The UTF-8 bytes of a string, as Rust's `String` stores them. -/
def strBytes (s : String) : List Nat := s.toList.flatMap utf8EncodeChar

/-- Number of bytes of the UTF-8 character led by byte `b`, `none` when `b`
cannot lead a character. -/
def charLen (b : Nat) : Option Nat :=
  if b < 0x80 then some 1
  else if 0xC0 ≤ b ∧ b < 0xE0 then some 2
  else if 0xE0 ≤ b ∧ b < 0xF0 then some 3
  else if 0xF0 ≤ b ∧ b < 0xF8 then some 4
  else none

/-- `validUtf8Aux n l`: `l` consists of `n` continuation bytes and then whole
UTF-8-shaped characters (lead byte followed by the right number of
continuation bytes). -/
def validUtf8Aux : Nat → List Nat → Bool
  | 0, [] => true
  | 0, b :: t =>
    match charLen b with
    | none => false
    | some k => validUtf8Aux (k - 1) t
  | _ + 1, [] => false
  | n + 1, b :: t => contByte b && validUtf8Aux n t

/-- A byte list decomposes into UTF-8-shaped character sequences.  Every Rust
string satisfies this. -/
def validUtf8 (l : List Nat) : Bool := validUtf8Aux 0 l

/-- A lead byte is never a continuation byte. -/
theorem charLen_not_contByte (b : Nat) (k : Nat) (h : charLen b = some k) :
    contByte b = false := by
  by_contra hb
  have hb' : contByte b = true := by
    cases hcb : contByte b
    · exact absurd hcb hb
    · rfl
  have hrange : 0x80 ≤ b ∧ b < 0xC0 := by
    simpa [contByte] using hb'
  have h1 : ¬ b < 0x80 := by omega
  have h2 : ¬ (0xC0 ≤ b ∧ b < 0xE0) := by omega
  have h3 : ¬ (0xE0 ≤ b ∧ b < 0xF0) := by omega
  have h4 : ¬ (0xF0 ≤ b ∧ b < 0xF8) := by omega
  rw [charLen, if_neg h1, if_neg h2, if_neg h3, if_neg h4] at h
  exact Option.noConfusion h

/-- A valid byte list never starts with a continuation byte. -/
theorem validUtf8_head (l : List Nat) (h : validUtf8 l = true) :
    l = [] ∨ ∃ b t, l = b :: t ∧ contByte b = false := by
  cases l with
  | nil => exact Or.inl rfl
  | cons b t =>
    refine Or.inr ⟨b, t, rfl, ?_⟩
    cases hcl : charLen b with
    | none =>
      rw [validUtf8, validUtf8Aux, hcl] at h
      exact absurd h (by simp)
    | some k => exact charLen_not_contByte b k hcl

/-- Any index at or past the length fails `getElem?`; an index strictly inside a
valid list that marks the start of the suffix is a char boundary. -/
theorem is_char_boundary_append (p l : List Nat) (h : validUtf8 l = true) :
    is_char_boundary (p ++ l) p.length = true := by
  rcases Nat.eq_zero_or_pos p.length with hp | hp
  · simp [is_char_boundary, hp]
  · rw [is_char_boundary]
    have hne : ¬ p.length = 0 := by omega
    rw [if_neg hne]
    rcases validUtf8_head l h with hl | ⟨b, t, hl, hb⟩
    · subst hl
      simp
    · subst hl
      have : (p ++ b :: t).get? p.length = some b := by
        rw [List.get?_eq_getElem?]
        rw [List.getElem?_append_right (Nat.le_refl p.length)]
        simp
      rw [this]
      simp [hb]

/-- The variant kind of an element (specification-side observer, used to state
frame conditions). -/
inductive Kind : Type where
  | base | node | value
deriving DecidableEq, Repr

/-- Which of the three variants an element currently is. -/
def Element.kind {T : Type} : Element T → Kind
  | .Value _ _ _ => .value
  | .Node _ _ => .node
  | .Base _ _ => .base

mutual
/-- Follows the spec's words (§8 Key completeness): one `(full_key, value)`
entry per `Value`-kind descendant of the receiver (receiver included), where
`full_key` is the concatenation of the labels along the path from the receiver
down to that descendant, both endpoints included; `Node`/`Base` descendants
contribute no entry.  Descendants are enumerated here depth-first, so this
definition fixes the multiset of entries, not their order. -/
def specEntries {T : Type} : List Nat → Element T → List (List Nat × T)
  | pre, .Value l v cs => (pre ++ l, v) :: specEntriesList (pre ++ l) cs
  | pre, .Node l cs => specEntriesList (pre ++ l) cs
  | pre, .Base l cs => specEntriesList (pre ++ l) cs

/-- Entries of a children sequence, in order, each child prefixed by the full
key of its parent. -/
def specEntriesList {T : Type} : List Nat → List (Element T) → List (List Nat × T)
  | _, [] => []
  | pre, c :: cs => specEntries pre c ++ specEntriesList pre cs
end

/-- Follows the spec's words (§4.4): the value entries contributed by one
breadth-first frontier, in the parents' children order. -/
def emitLevel {T : Type} (f : List (List Nat × Element T)) : List (List Nat × T) :=
  f.flatMap fun p =>
    match p.2.value with
    | some v => [(p.1 ++ p.2.label, v)]
    | none => []

/-- Follows the spec's words (§4.4): the next breadth-first frontier, each
child tagged with its parent's materialised full key. -/
def nextLevel {T : Type} (f : List (List Nat × Element T)) : List (List Nat × Element T) :=
  f.flatMap fun p => p.2.children.map fun c => (p.1 ++ p.2.label, c)

theorem qsize_nextLevel_lt {T : Type} (f : List (List Nat × Element T))
    (h : f ≠ []) : qsize (nextLevel f) < qsize f := by
  have key : ∀ g : List (List Nat × Element T),
      qsize (nextLevel g) + g.length ≤ qsize g := by
    intro g
    induction g with
    | nil => simp [nextLevel, qsize, sizeList]
    | cons p g ih =>
      have hstep : nextLevel (p :: g) =
          (p.2.children.map fun c => (p.1 ++ p.2.label, c)) ++ nextLevel g := by
        simp [nextLevel]
      rw [hstep, qsize_append, qsize_map_pair]
      have hsz : sizeList p.2.children < p.2.size := by
        cases p.2 <;> simp [Element.size, Element.children, Element.unpack]
      have hq : qsize (p :: g) = p.2.size + qsize g := by
        simp [qsize, sizeList]
      rw [hq]
      simp only [List.length_cons]
      omega
  have hlen : 0 < f.length := List.length_pos.mpr h
  have := key f
  omega

/-- Follows the spec's words (§4.4, §8 Order determinism): emit all value
entries of the current frontier (depth `d`), in the parents' children order,
then every entry of strictly deeper frontiers. -/
def levelOrder {T : Type} (f : List (List Nat × Element T)) : List (List Nat × T) :=
  match f with
  | [] => []
  | p :: rest => emitLevel (p :: rest) ++ levelOrder (nextLevel (p :: rest))
termination_by qsize f
decreasing_by
  exact qsize_nextLevel_lt (p :: rest) (List.cons_ne_nil p rest)

namespace Element

variable {T : Type}

theorem getD_append_left (l r : List (List Nat)) (n : Nat) (h : n < l.length) :
    (l ++ r).getD n [] = l.getD n [] :=
  List.getD_append l r [] n h

theorem getD_append_length (l : List (List Nat)) (a : List Nat) :
    (l ++ [a]).getD l.length [] = a := by
  simp [List.getD_eq_getElem?_getD]

/-- Every queue entry of the source loop carries an index into the label table;
replacing each index by the table entry it resolves to turns `cacvLoop` into
the table-free queue recursion `bfsAux`. -/
theorem cacvLoop_eq_bfsAux :
    ∀ (n : Nat) (q : List (Nat × Element T)) (labels : List (List Nat))
      (res : List (List Nat × T)),
      qsize q ≤ n → (∀ pr ∈ q, pr.1 < labels.length) →
      cacvLoop q labels res =
        res ++ bfsAux (q.map fun pr => (labels.getD pr.1 [], pr.2)) := by
  intro n
  induction n with
  | zero =>
    intro q labels res hq _hb
    cases q with
    | nil => simp [cacvLoop, bfsAux]
    | cons p rest =>
      exfalso
      have h1 : 0 < p.2.size := size_pos p.2
      have h2 : qsize (p :: rest) = p.2.size + qsize rest := by
        simp [qsize, sizeList]
      omega
  | succ m ih =>
    intro q labels res hq hb
    cases q with
    | nil => simp [cacvLoop, bfsAux]
    | cons p rest =>
      obtain ⟨i, e⟩ := p
      have hi : i < labels.length := hb (i, e) (List.mem_cons_self _ _)
      simp only [cacvLoop]
      have hlenapp : (labels ++ [labels.getD i [] ++ e.label]).length - 1 =
          labels.length := by simp
      rw [hlenapp]
      have hrec :
          cacvLoop (rest ++ e.children.map fun c => (labels.length, c))
            (labels ++ [labels.getD i [] ++ e.label])
            (match e.value with
             | some v => res ++
                 [((labels ++ [labels.getD i [] ++ e.label]).getD labels.length [], v)]
             | none => res) =
          (match e.value with
           | some v => res ++
               [((labels ++ [labels.getD i [] ++ e.label]).getD labels.length [], v)]
           | none => res) ++
            bfsAux ((rest ++ e.children.map fun c => (labels.length, c)).map
              fun pr => ((labels ++ [labels.getD i [] ++ e.label]).getD pr.1 [], pr.2)) := by
        apply ih
        · have hsz : sizeList e.children < e.size := by
            cases e <;> simp [Element.size, Element.children, Element.unpack]
          have hq' : qsize ((i, e) :: rest) = e.size + qsize rest := by
            simp [qsize, sizeList]
          rw [qsize_append, qsize_map_pair]
          omega
        · intro pr hpr
          rcases List.mem_append.mp hpr with hpr | hpr
          · have := hb pr (List.mem_cons_of_mem _ hpr)
            simp only [List.length_append, List.length_cons, List.length_nil]
            omega
          · rcases List.mem_map.mp hpr with ⟨c, _, hc⟩
            subst hc
            simp
      rw [hrec]
      have hmapq :
          ((rest ++ e.children.map fun c => (labels.length, c)).map
            fun pr => ((labels ++ [labels.getD i [] ++ e.label]).getD pr.1 [], pr.2)) =
          (rest.map fun pr => (labels.getD pr.1 [], pr.2)) ++
            e.children.map fun c => (labels.getD i [] ++ e.label, c) := by
        rw [List.map_append]
        congr 1
        · apply List.map_congr_left
          intro pr hpr
          have := hb pr (List.mem_cons_of_mem _ hpr)
          rw [getD_append_left _ _ _ this]
        · rw [List.map_map]
          apply List.map_congr_left
          intro c _
          simp only [Function.comp_apply]
          rw [getD_append_length]
      rw [hmapq]
      have hbfs :
          bfsAux (((i, e) :: rest).map fun pr => (labels.getD pr.1 [], pr.2)) =
          (match e.value with
           | some v => [(labels.getD i [] ++ e.label, v)]
           | none => []) ++
            bfsAux ((rest.map fun pr => (labels.getD pr.1 [], pr.2)) ++
              e.children.map fun c => (labels.getD i [] ++ e.label, c)) := by
        simp only [List.map_cons]
        rw [bfsAux]
      rw [hbfs]
      rw [getD_append_length]
      cases e.value <;> simp

/-- `collect_all_child_values` equals the table-free queue recursion seeded with
the receiver's children, after the receiver's own optional entry. -/
theorem collect_eq_bfsAux (e : Element T) :
    collect_all_child_values e =
      (match e.value with
       | some v => [(e.label, v)]
       | none => []) ++ bfsAux (e.children.map fun c => (e.label, c)) := by
  rw [collect_all_child_values]
  have h := cacvLoop_eq_bfsAux (qsize (e.children.map fun c => (0, c)))
    (e.children.map fun c => (([e.label] : List (List Nat)).length - 1, c)) [e.label]
    (match e.value with
     | some v => [(e.label, v)]
     | none => [])
    (by simp) ?_
  · have harg :
        (List.map (fun c => (([e.label] : List (List Nat)).length - 1, c))
            e.children).map
          (fun pr => (([e.label] : List (List Nat)).getD pr.1 [], pr.2)) =
        e.children.map fun c => (e.label, c) := by
      rw [List.map_map]
      apply List.map_congr_left
      intro c _
      simp [List.getD]
    rw [h, harg]
  · intro pr hpr
    rcases List.mem_map.mp hpr with ⟨c, _, hc⟩
    subst hc
    simp

end Element

theorem specEntriesList_eq_flatMap {T : Type} (pre : List Nat)
    (cs : List (Element T)) :
    specEntriesList pre cs = cs.flatMap (specEntries pre) := by
  induction cs with
  | nil => simp [specEntriesList]
  | cons c cs ih => simp [specEntriesList, ih]

theorem specEntries_decomp {T : Type} (pre : List Nat) (e : Element T) :
    specEntries pre e =
      (match e.value with
       | some v => [(pre ++ e.label, v)]
       | none => []) ++ specEntriesList (pre ++ e.label) e.children := by
  cases e <;> simp [specEntries, Element.value, Element.label, Element.children,
    Element.unpack]

/-- The queue recursion visits each queued subtree exactly once: its output is
a permutation of the per-subtree depth-first entries. -/
theorem bfsAux_perm {T : Type} :
    ∀ (n : Nat) (q : List (List Nat × Element T)), qsize q ≤ n →
      (Element.bfsAux q).Perm (q.flatMap fun pr => specEntries pr.1 pr.2) := by
  intro n
  induction n with
  | zero =>
    intro q hq
    cases q with
    | nil => simp [Element.bfsAux]
    | cons p rest =>
      exfalso
      have h1 : 0 < p.2.size := size_pos p.2
      have h2 : qsize (p :: rest) = p.2.size + qsize rest := by
        simp [qsize, sizeList]
      omega
  | succ m ih =>
    intro q hq
    cases q with
    | nil => simp [Element.bfsAux]
    | cons p rest =>
      obtain ⟨pre, e⟩ := p
      rw [Element.bfsAux]
      have hrec : (Element.bfsAux
          (rest ++ e.children.map fun c => (pre ++ e.label, c))).Perm
          ((rest ++ e.children.map fun c => (pre ++ e.label, c)).flatMap
            fun pr => specEntries pr.1 pr.2) := by
        apply ih
        have hsz : sizeList e.children < e.size := by
          cases e <;> simp [Element.size, Element.children, Element.unpack]
        have hq' : qsize ((pre, e) :: rest) = e.size + qsize rest := by
          simp [qsize, sizeList]
        rw [qsize_append, qsize_map_pair]
        omega
      have hflat :
          ((rest ++ e.children.map fun c => (pre ++ e.label, c)).flatMap
            fun pr => specEntries pr.1 pr.2) =
          (rest.flatMap fun pr => specEntries pr.1 pr.2) ++
            specEntriesList (pre ++ e.label) e.children := by
        rw [List.flatMap_append]
        congr 1
        rw [specEntriesList_eq_flatMap]
        rw [List.flatMap_map]
      rw [hflat] at hrec
      have step1 := hrec.append_left
        (match e.value with
         | some v => [(pre ++ e.label, v)]
         | none => [])
      refine step1.trans ?_
      have hcomm := @List.perm_append_comm _
        (rest.flatMap fun pr => specEntries pr.1 pr.2)
        (specEntriesList (pre ++ e.label) e.children)
      have step2 := hcomm.append_left
        (match e.value with
         | some v => [(pre ++ e.label, v)]
         | none => [])
      refine step2.trans ?_
      have htarget :
          ((pre, e) :: rest).flatMap (fun pr => specEntries pr.1 pr.2) =
          ((match e.value with
            | some v => [(pre ++ e.label, v)]
            | none => []) ++ specEntriesList (pre ++ e.label) e.children) ++
            rest.flatMap fun pr => specEntries pr.1 pr.2 := by
        rw [List.flatMap_cons]
        rw [specEntries_decomp]
      rw [htarget, List.append_assoc]

/-- Processing a FIFO queue emits the whole current frontier before anything
queued behind it: splitting the queue as `f ++ nq` emits `f`'s entries, then
continues with `nq` followed by `f`'s children. -/
theorem bfsAux_split {T : Type} :
    ∀ (f nq : List (List Nat × Element T)),
      Element.bfsAux (f ++ nq) = emitLevel f ++ Element.bfsAux (nq ++ nextLevel f) := by
  intro f
  induction f with
  | nil =>
    intro nq
    simp [emitLevel, nextLevel]
  | cons p f ih =>
    intro nq
    obtain ⟨pre, e⟩ := p
    have hl : ((pre, e) :: f) ++ nq = (pre, e) :: (f ++ nq) := rfl
    rw [hl, Element.bfsAux]
    have hq : (f ++ nq) ++ e.children.map (fun c => (pre ++ e.label, c)) =
        f ++ (nq ++ e.children.map fun c => (pre ++ e.label, c)) :=
      List.append_assoc _ _ _
    rw [hq, ih]
    have hemit : emitLevel ((pre, e) :: f) =
        (match e.value with
         | some v => [(pre ++ e.label, v)]
         | none => []) ++ emitLevel f := by
      simp only [emitLevel, List.flatMap_cons]
    have hnext : nextLevel ((pre, e) :: f) =
        (e.children.map fun c => (pre ++ e.label, c)) ++ nextLevel f := by
      simp only [nextLevel, List.flatMap_cons]
    rw [hemit, hnext]
    rw [List.append_assoc nq (e.children.map fun c => (pre ++ e.label, c)) (nextLevel f)]
    exact (List.append_assoc _ _ _).symm

/-- The FIFO queue recursion emits in level order. -/
theorem bfsAux_eq_levelOrder {T : Type} :
    ∀ (n : Nat) (f : List (List Nat × Element T)), qsize f ≤ n →
      Element.bfsAux f = levelOrder f := by
  intro n
  induction n with
  | zero =>
    intro f hf
    cases f with
    | nil => simp [Element.bfsAux, levelOrder]
    | cons p rest =>
      exfalso
      have h1 : 0 < p.2.size := size_pos p.2
      have h2 : qsize (p :: rest) = p.2.size + qsize rest := by
        simp [qsize, sizeList]
      omega
  | succ m ih =>
    intro f hf
    cases f with
    | nil => simp [Element.bfsAux, levelOrder]
    | cons p rest =>
      have hsplit := bfsAux_split (p :: rest) ([] : List (List Nat × Element T))
      rw [List.append_nil, List.nil_append] at hsplit
      rw [hsplit]
      rw [levelOrder]
      congr 1
      apply ih
      have := qsize_nextLevel_lt (p :: rest) (List.cons_ne_nil p rest)
      omega

/-- `is_char_boundary s i` forces `i ≤ s.length`. -/
theorem is_char_boundary_le (s : List Nat) (i : Nat)
    (h : is_char_boundary s i = true) : i ≤ s.length := by
  by_contra hgt
  have hi : s.length < i := by omega
  rw [is_char_boundary] at h
  have hne : ¬ i = 0 := by omega
  rw [if_neg hne] at h
  have : s.get? i = none := by
    rw [List.get?_eq_getElem?, List.getElem?_eq_none]
    omega
  rw [this] at h
  simp at h
  omega

namespace Element

variable {T : Type}

theorem setLabel_label (e : Element T) (l : List Nat) : (e.setLabel l).label = l := by
  cases e <;> rfl

theorem setLabel_children (e : Element T) (l : List Nat) :
    (e.setLabel l).children = e.children := by
  cases e <;> rfl

theorem setLabel_value (e : Element T) (l : List Nat) :
    (e.setLabel l).value = e.value := by
  cases e <;> rfl

theorem setLabel_kind (e : Element T) (l : List Nat) :
    (e.setLabel l).kind = e.kind := by
  cases e <;> rfl

theorem setLabel_setLabel (e : Element T) (l l' : List Nat) :
    (e.setLabel l).setLabel l' = e.setLabel l' := by
  cases e <;> rfl

theorem setLabel_label_self (e : Element T) : e.setLabel e.label = e := by
  cases e <;> rfl

end Element

/-- `get_test_example()` from the source's test module: the compressed trie
over {industry, industrial, industrialization, india, indian}. -/
def get_test_example : Element Unit :=
  .Base (strBytes "in")
    [.Node (strBytes "d")
      [.Value (strBytes "ustry") () [],
       .Node (strBytes "ustri")
         [.Value (strBytes "al") ()
           [.Value (strBytes "ization") () []]],
       .Value (strBytes "ia") ()
         [.Value (strBytes "n") () []]]]

/-! ### The claims -/

/-- C1.  For every finite tree rooted at `e`, `collect_all_child_values()`
returns exactly one `(key, value)` entry per `Value`-kind descendant of `e`
(`e` itself included), no entries for `Node`- or `Base`-kind descendants, and
each entry's key is the concatenation of the labels along the path from `e` to
that descendant, both endpoints' labels included: its output is a permutation
of the descendant-by-descendant enumeration `specEntries`. -/
theorem collect_all_child_values_entries_perm {T : Type} (e : Element T) :
    (Element.collect_all_child_values e).Perm (specEntries [] e) := by
  rw [Element.collect_eq_bfsAux]
  have h := bfsAux_perm (qsize (e.children.map fun c => (e.label, c)))
    (e.children.map fun c => (e.label, c)) (le_refl _)
  have hflat : ((e.children.map fun c => (e.label, c)).flatMap
      fun pr => specEntries pr.1 pr.2) = specEntriesList e.label e.children := by
    rw [specEntriesList_eq_flatMap, List.flatMap_map]
  rw [hflat] at h
  have hperm := h.append_left
    (match e.value with
     | some v => [(e.label, v)]
     | none => [])
  have hspec : specEntries [] e =
      (match e.value with
       | some v => [(e.label, v)]
       | none => []) ++ specEntriesList e.label e.children := by
    rw [specEntries_decomp]
    simp
  rw [hspec]
  exact hperm

/-- C2.  `collect_all_child_values()` emits its entries in strict breadth-first
(level) order: the receiver's own entry first, then all `Value` entries at
depth `d` (within a level in the parents' children order) before any entry at
depth `d + 1`.  As the equation below is between deterministic functions of
the tree, the output sequence is the same on every call for a fixed tree. -/
theorem collect_all_child_values_level_order {T : Type} (e : Element T) :
    Element.collect_all_child_values e =
      (match e.value with
       | some v => [(e.label, v)]
       | none => []) ++ levelOrder (e.children.map fun c => (e.label, c)) := by
  rw [Element.collect_eq_bfsAux]
  congr 1
  exact bfsAux_eq_levelOrder (qsize (e.children.map fun c => (e.label, c))) _
    (le_refl _)

/-- C3.  `node_to_value` on a `Node` with label `L` and children `C` succeeds
and leaves a `Value` with label `L`, value `v`, and the children `C`
element-for-element in the original order; `is_node()` on the result is
`false`. -/
theorem node_to_value_promotes {T : Type} (L : List Nat) (C : List (Element T))
    (v : T) :
    Element.node_to_value (.Node L C) v = some (.Value L v C) ∧
    (Element.Value L v C).is_node = false := by
  constructor
  · rw [Element.node_to_value, Element.take_children_eq]
  · rfl

/-- C4.  Prepending a prefix `p` to any element's label and then removing the
first `len(p)` bytes restores the original label (and the whole element).  The
`validUtf8` hypothesis records that the element's label is a Rust `String`
(always valid UTF-8); the prefix may be any byte sequence. -/
theorem add_remove_label_prefix_roundtrip {T : Type} (e : Element T)
    (p : List Nat) (hl : validUtf8 e.label = true) :
    Element.remove_label_prefix (Element.add_label_prefix e p) p.length =
      some e := by
  rw [Element.add_label_prefix, Element.remove_label_prefix,
    Element.setLabel_label, replaceRangePrefix,
    if_pos (is_char_boundary_append p e.label hl)]
  rw [Option.map_some']
  rw [List.drop_left]
  rw [Element.setLabel_setLabel, Element.setLabel_label_self]

/-- Witness for C4 at a concrete element and prefix. -/
theorem add_remove_label_prefix_roundtrip_witness :
    Element.remove_label_prefix
      (Element.add_label_prefix (Element.Node [0x64] ([] : List (Element Nat)))
        [0x69, 0x6E]) 2 =
      some (Element.Node [0x64] []) :=
  add_remove_label_prefix_roundtrip (Element.Node [0x64] []) [0x69, 0x6E]
    (by decide)

/-- C5.  Invoking `node_to_value` on a `Base` or a `Value` element trips the
`assert!` (modelled as `none`) in all cases: the operation never returns or
mutates such an element normally. -/
theorem node_to_value_requires_node {T : Type} (L : List Nat)
    (cs : List (Element T)) (v0 v : T) :
    Element.node_to_value (.Base L cs) v = none ∧
    Element.node_to_value (.Value L v0 cs) v = none :=
  ⟨rfl, rfl⟩

/-- C6.  `remove_label_prefix(prefix_len)` requires `prefix_len` to be at most
the label's byte length and to fall on a character boundary; when the
precondition holds it deletes exactly the first `prefix_len` bytes of the
label (the removed bytes prepended to the new label reconstitute the old one),
and when it is violated it panics (`none`) instead of returning a recoverable
value. -/
theorem remove_label_prefix_contract {T : Type} (e : Element T) (n : Nat) :
    ((n ≤ e.label.length ∧ is_char_boundary e.label n = true) →
      Element.remove_label_prefix e n = some (e.setLabel (e.label.drop n)) ∧
      (e.setLabel (e.label.drop n)).label = e.label.drop n ∧
      e.label.take n ++ (e.setLabel (e.label.drop n)).label = e.label) ∧
    (¬ (n ≤ e.label.length ∧ is_char_boundary e.label n = true) →
      Element.remove_label_prefix e n = none) := by
  constructor
  · intro h
    refine ⟨?_, Element.setLabel_label _ _, ?_⟩
    · rw [Element.remove_label_prefix, replaceRangePrefix, if_pos h.2,
        Option.map_some']
    · rw [Element.setLabel_label, List.take_append_drop]
  · intro h
    have hb : is_char_boundary e.label n = false := by
      cases hcb : is_char_boundary e.label n
      · rfl
      · exact absurd ⟨is_char_boundary_le _ _ hcb, hcb⟩ h
    rw [Element.remove_label_prefix, replaceRangePrefix, if_neg (by simp [hb]),
      Option.map_none']

/-- Witness for C6: both branches of the contract at concrete inputs. -/
theorem remove_label_prefix_contract_witness :
    Element.remove_label_prefix
        (Element.Node [0x61, 0x62] ([] : List (Element Nat))) 1 =
      some (Element.Node [0x62] []) ∧
    Element.remove_label_prefix
        (Element.Node [0x61, 0x62] ([] : List (Element Nat))) 5 = none :=
  ⟨((remove_label_prefix_contract (Element.Node [0x61, 0x62] []) 1).1
      (by decide)).1,
   (remove_label_prefix_contract (Element.Node [0x61, 0x62] []) 5).2
      (by decide)⟩

/-- C7.  On the source's test tree (`get_test_example`), the keys returned by
`collect_all_child_values()`, in order, are exactly
["industry", "india", "industrial", "indian", "industrialization"]. -/
theorem collect_all_child_values_golden :
    (Element.collect_all_child_values get_test_example).map Prod.fst =
      [strBytes "industry", strBytes "india", strBytes "industrial",
       strBytes "indian", strBytes "industrialization"] := by
  simp [get_test_example, strBytes, utf8EncodeChar,
    Element.collect_all_child_values, Element.cacvLoop, Element.label,
    Element.children, Element.value, Element.unpack]

/-- C8.  `value()` returns `some` of the stored value exactly on the `Value`
variant and `none` on `Base`/`Node`; `value_mut()` selects identically. -/
theorem value_accessors_spec {T : Type} (l : List Nat) (v : T)
    (cs : List (Element T)) :
    Element.value (.Value l v cs) = some v ∧
    Element.value (.Node l cs) = none ∧
    Element.value (.Base l cs) = none ∧
    Element.value_mut (.Value l v cs) = some v ∧
    Element.value_mut (.Node l cs) = none ∧
    Element.value_mut (.Base l cs) = none :=
  ⟨rfl, rfl, rfl, rfl, rfl, rfl⟩

/-- C9.  `add_label_prefix` and `remove_label_prefix` (when it succeeds)
mutate only the label: the variant kind, the stored value, and the children
sequence (order included) are unchanged. -/
theorem label_prefix_frame {T : Type} (e : Element T) (p : List Nat) (n : Nat) :
    ((Element.add_label_prefix e p).kind = e.kind ∧
     (Element.add_label_prefix e p).value = e.value ∧
     (Element.add_label_prefix e p).children = e.children) ∧
    (∀ e', Element.remove_label_prefix e n = some e' →
      e'.kind = e.kind ∧ e'.value = e.value ∧ e'.children = e.children) := by
  constructor
  · exact ⟨Element.setLabel_kind _ _, Element.setLabel_value _ _,
      Element.setLabel_children _ _⟩
  · intro e' h
    rw [Element.remove_label_prefix, replaceRangePrefix] at h
    by_cases hb : is_char_boundary e.label n = true
    · rw [if_pos hb, Option.map_some'] at h
      have he : e' = e.setLabel (e.label.drop n) := (Option.some.inj h).symm
      subst he
      exact ⟨Element.setLabel_kind _ _, Element.setLabel_value _ _,
        Element.setLabel_children _ _⟩
    · rw [if_neg hb, Option.map_none'] at h
      exact absurd h (by simp)

/-- Witness for C9's `remove_label_prefix` branch at a concrete element. -/
theorem label_prefix_frame_witness :
    (Element.Value ([] : List Nat) (7 : Nat) []).kind =
        (Element.Value [0x61] (7 : Nat) []).kind ∧
      (Element.Value ([] : List Nat) (7 : Nat) []).value =
        (Element.Value [0x61] (7 : Nat) []).value ∧
      (Element.Value ([] : List Nat) (7 : Nat) []).children =
        (Element.Value [0x61] (7 : Nat) []).children :=
  (label_prefix_frame (Element.Value [0x61] (7 : Nat) []) [0x62] 1).2
    (Element.Value [] (7 : Nat) []) rfl

/-- C10.  `unpack()` yields `(label, some value, children)` exactly on the
`Value` variant and `(label, none, children)` on both `Base` and `Node`; in
particular the `Base`/`Node` distinction is not recoverable from its result. -/
theorem unpack_spec {T : Type} (l : List Nat) (v : T) (cs : List (Element T)) :
    Element.unpack (.Value l v cs) = (l, some v, cs) ∧
    Element.unpack (.Node l cs) = (l, none, cs) ∧
    Element.unpack (.Base l cs) = (l, none, cs) ∧
    Element.unpack (.Node l cs) = Element.unpack (.Base l cs) :=
  ⟨rfl, rfl, rfl, rfl⟩

end RadixTrie
